import Mathlib

/-!
Verification of the tree2md tree-construction and filtering engine
(src/main.go) against its natural-language specification.

Modelling conventions (shallow embedding of the Go source):

* A Go string is a byte sequence; we model it as `GoStr := List Nat`
  (each element a byte value).  The helper `str` converts an ASCII Lean
  string literal into its byte list, purely for readability of concrete
  inputs.  All Go string primitives used by the program
  (strings.HasPrefix, strings.HasSuffix, strings.Split on a one-byte
  separator, strings.TrimSpace, strings.ToLower on ASCII,
  strings.TrimPrefix, strings.TrimSuffix, filepath.Base on clean
  relative paths) are translated byte-for-byte below.
* File-system I/O is abstracted: `loadGitignore` receives the bytes of
  the ignore file (os.ReadFile is the I/O boundary),
  `loadFileContentWithLimits` receives the bytes of the file
  (os.Open/io.ReadAll is the I/O boundary), and the directory walker
  receives an in-memory file-system tree `FS` whose directories carry a
  `readable` flag (os.ReadDir succeeds iff `readable`; os.Stat always
  succeeds for entries present in the tree).
* os.ReadDir returns entries sorted by file name; theorems that depend
  on that ordering take it as an explicit hypothesis on the `entries`
  list of a directory.
* The walker is invoked as the program does for the default root
  argument "." : paths accumulate by filepath.Join starting from ".",
  and filepath.Rel(".", p) = p for the clean relative paths so produced.
  We thread the accumulated path as its list of segments `List GoStr`
  and join it with "/" (`pathOf`) exactly where the Go code consults the
  joined string, with `pathOf [] = "."` for the root itself.
-/

/-- A Go string, viewed as its byte sequence. -/
abbrev GoStr := List Nat

/-- Byte list of an ASCII Lean string literal (readability helper for
concrete inputs). -/
def str (s : String) : GoStr := s.data.map Char.toNat

/-- strings.TrimPrefix: drop `pre` from the front of `s` when it is a
prefix, otherwise return `s` unchanged. -/
def trimPrefixB (s pre : GoStr) : GoStr :=
  if pre.isPrefixOf s then s.drop pre.length else s

/-- strings.TrimSuffix: drop `suf` from the end of `s` when it is a
suffix, otherwise return `s` unchanged. -/
def trimSuffixB (s suf : GoStr) : GoStr :=
  if suf.isSuffixOf s then s.take (s.length - suf.length) else s

/-- filepath.Base for the clean relative slash-separated paths produced
by the walker (no trailing slash): the final path segment.  Go returns
"." for the empty path. -/
def filepathBase (p : GoStr) : GoStr :=
  if p == [] then str "." else (p.splitOn 47).getLastD []

/-- Go byte value of the ASCII space class recognised by
strings.TrimSpace (tab, LF, VT, FF, CR, space). -/
def isSpaceByte (b : Nat) : Bool :=
  b == 9 || b == 10 || b == 11 || b == 12 || b == 13 || b == 32

/-- strings.TrimSpace restricted to ASCII white space. -/
def trimSpaceB (s : GoStr) : GoStr :=
  ((s.dropWhile isSpaceByte).reverse.dropWhile isSpaceByte).reverse

/-- strings.ToLower on ASCII bytes: map the range A-Z to a-z. -/
def lowerByte (b : Nat) : Nat := if 65 ≤ b && b ≤ 90 then b + 32 else b

/-- strings.ToLower on an ASCII byte string. -/
def toLowerB (s : GoStr) : GoStr := s.map lowerByte

/-- GitignorePattern from src/main.go: one parsed .gitignore rule. -/
structure GitignorePattern where
  pattern : GoStr
  isNegation : Bool := false
  isDir : Bool := false
deriving DecidableEq, Repr

/-- loadGitignore from src/main.go, applied to the bytes of the ignore
file (os.ReadFile abstracted): split into lines, trim, drop blank and
#-comment lines, strip a leading "!" as negation and a trailing "/" as
a directory-only marker. -/
def loadGitignore (data : GoStr) : List GitignorePattern :=
  (data.splitOn 10).filterMap (fun line =>
    let line := trimSpaceB line
    if line == [] || (str "#").isPrefixOf line then none
    else
      let neg := (str "!").isPrefixOf line
      let pat0 := if neg then line.drop 1 else line
      let dir := (str "/").isSuffixOf pat0
      let pat := if dir then trimSuffixB pat0 (str "/") else pat0
      some { pattern := pat, isNegation := neg, isDir := dir })

/-- matchGitignorePattern from src/main.go: exact match, base-name
match, the simple leading/trailing "*" wildcard forms, and finally a
match against any slash-separated component of the path. -/
def matchGitignorePattern (path pattern : GoStr) : Bool :=
  if path == pattern then true
  else if filepathBase path == pattern then true
  else if pattern.contains 42 &&
      (((str "*").isPrefixOf pattern &&
          ((trimPrefixB pattern (str "*")).isSuffixOf path ||
           (trimPrefixB pattern (str "*")).isSuffixOf (filepathBase path))) ||
       ((str "*").isSuffixOf pattern &&
          ((trimSuffixB pattern (str "*")).isPrefixOf path ||
           (trimSuffixB pattern (str "*")).isPrefixOf (filepathBase path)))) then true
  else (path.splitOn 47).any (fun part => part == pattern)

/-- The loop body of shouldIgnore: a directory-only rule is skipped for
files; a matching plain rule sets the running decision to ignored, a
matching negated rule sets it to not ignored; otherwise the decision is
unchanged. -/
def shouldIgnoreStep (path : GoStr) (isDir : Bool) (ignored : Bool) (pat : GitignorePattern) : Bool :=
  if pat.isDir && !isDir then ignored
  else if matchGitignorePattern path pat.pattern then
    if pat.isNegation then false else true
  else ignored

/-- shouldIgnore from src/main.go: strip a leading "./", then fold the
loop body over the rules in declaration order starting from not
ignored; the last matching rule wins. -/
def shouldIgnore (path : GoStr) (isDir : Bool) (patterns : List GitignorePattern) : Bool :=
  patterns.foldl (shouldIgnoreStep (trimPrefixB path (str "./")) isDir) false

/-- The CLI options that influence tree construction (the global flag
variables of src/main.go relevant to buildTreeWithGitignore).  Flag
defaults mirror the flag definitions in main(): flagAll is false unless
-a or --all is passed. -/
structure Config where
  flagAll : Bool := false
deriving DecidableEq, Repr

mutual
/-- An in-memory file-system tree.  A directory carries a `readable`
flag: os.ReadDir on it succeeds iff `readable` is true. -/
inductive FS where
  | file (name : GoStr)
  | dir (name : GoStr) (readable : Bool) (entries : FSList)
deriving Repr, DecidableEq
/-- The entry list of a directory, in the (sorted) order returned by
os.ReadDir. -/
inductive FSList where
  | nil
  | cons (e : FS) (es : FSList)
deriving Repr, DecidableEq
end

/-- Name of a file-system entry (DirEntry.Name). -/
def fsName : FS → GoStr
  | .file n => n
  | .dir n _ _ => n

/-- Whether a file-system entry is a directory (DirEntry.IsDir). -/
def fsIsDir : FS → Bool
  | .file _ => false
  | .dir _ _ _ => true

/-- View an FSList as a plain list. -/
def FSList.toList : FSList → List FS
  | .nil => .nil
  | .cons e es => e :: es.toList

/-- The joined path string for an accumulated segment list, as produced
by filepath.Join starting from the root argument ".":
pathOf [] = "." and pathOf [a, b] = "a/b". -/
def pathOf (segs : List GoStr) : GoStr :=
  if segs == [] then str "." else (segs.intersperse (str "/")).flatten

/-- Node from src/main.go. -/
structure Node where
  Name : GoStr
  Path : GoStr
  IsDir : Bool
  Children : List Node
  Content : GoStr

/-- The per-entry filter of the loop body of buildTreeWithGitignore:
an entry is kept unless (a) the all flag is unset and its name starts with
".", or (b) gitignore patterns are present and shouldIgnore holds for
its path relative to "." (filepath.Rel(".", p) = p here). -/
def keepEntry (cfg : Config) (pats : List GitignorePattern) (segs : List GoStr) (e : FS) : Bool :=
  !(!cfg.flagAll && (str ".").isPrefixOf (fsName e)) &&
  !(pats.length > 0 && shouldIgnore (pathOf (segs ++ [fsName e])) (fsIsDir e) pats)

mutual
/-- buildTreeWithGitignore from src/main.go over the abstract
file-system: a file becomes a leaf Node; a readable directory recurses
over the entries that survive `keepEntry`; an unreadable directory
(os.ReadDir error) is returned with no children and no error. -/
def buildTreeWithGitignore (cfg : Config) (pats : List GitignorePattern) (segs : List GoStr) : FS → Node
  | .file n => { Name := n, Path := pathOf segs, IsDir := false, Children := [], Content := [] }
  | .dir n readable entries =>
    { Name := n, Path := pathOf segs, IsDir := true,
      Children := if readable then buildChildren cfg pats segs entries else [],
      Content := [] }
/-- The entry loop of buildTreeWithGitignore: skipped entries
(`continue` in the source) contribute nothing; kept entries recurse
with the extended path. -/
def buildChildren (cfg : Config) (pats : List GitignorePattern) (segs : List GoStr) : FSList → List Node
  | .nil => []
  | .cons e es =>
    if keepEntry cfg pats segs e then
      buildTreeWithGitignore cfg pats (segs ++ [fsName e]) e :: buildChildren cfg pats segs es
    else buildChildren cfg pats segs es
end

mutual
/-- The directory paths (as segment lists) on which the walk of
buildTreeWithGitignore invokes os.ReadDir: every directory reached by
recursion, including unreadable ones (the failing ReadDir call is still
issued there), but never a skipped entry or anything below it. -/
def visitedDirs (cfg : Config) (pats : List GitignorePattern) (segs : List GoStr) : FS → List (List GoStr)
  | .file _ => []
  | .dir _ readable entries =>
    segs :: (if readable then visitedChildren cfg pats segs entries else [])
/-- Per-entry accumulation of `visitedDirs` over a directory listing. -/
def visitedChildren (cfg : Config) (pats : List GitignorePattern) (segs : List GoStr) : FSList → List (List GoStr)
  | .nil => []
  | .cons e es =>
    (if keepEntry cfg pats segs e then visitedDirs cfg pats (segs ++ [fsName e]) e else []) ++
    visitedChildren cfg pats segs es
end

/-- TruncationInfo from src/main.go.  The Go counts are machine
integers holding list lengths, always non-negative, so they are
modelled as Nat; the limits passed to loadFileContentWithLimits stay
Int because the flags can be negative. -/
structure TruncationInfo where
  Truncated : Bool
  TotalLines : Nat
  TotalBytes : Nat
  ShownLines : Nat
  ShownBytes : Nat
  TruncateType : String
deriving DecidableEq, Repr

/-- The trailing-line adjustment of loadFileContentWithLimits: after
strings.Split(content, newline), when the last element is empty (the
content ended with a newline) it is dropped. -/
def dropTrailEmpty (lines : List GoStr) : List GoStr :=
  if lines.length > 0 && lines.getLastD [] == [] then lines.dropLast else lines

/-- The line count loadFileContentWithLimits assigns to a byte string:
split on newline, drop a trailing empty element. -/
def lineCount (content : GoStr) : Nat := (dropTrailEmpty (content.splitOn 10)).length

/-- loadFileContentWithLimits from src/main.go, applied to the bytes of
the file (os.Open and io.ReadAll abstracted).  Limits that are not
positive mean unlimited; the line cap keeps the first maxLines lines;
the byte cap is a plain prefix cut of the rejoined content. -/
def loadFileContentWithLimits (content : GoStr) (maxBytes maxLines : Int) : GoStr × TruncationInfo :=
  let lines := dropTrailEmpty (content.splitOn 10)
  let totalLines := lines.length
  let totalBytes := content.length
  if maxBytes ≤ 0 ∧ maxLines ≤ 0 then
    (content, ⟨false, totalLines, totalBytes, totalLines, totalBytes, ""⟩)
  else
    let truncatedByLines : Bool := decide (0 < maxLines) && decide (maxLines < (totalLines : Int))
    let lines1 := if truncatedByLines then lines.take maxLines.toNat else lines
    let tc0 := List.intercalate [10] lines1
    let truncatedByBytes : Bool := decide (0 < maxBytes) && decide (maxBytes < (tc0.length : Int))
    let tc := if truncatedByBytes then tc0.take maxBytes.toNat else tc0
    let shownLines := (dropTrailEmpty (tc.splitOn 10)).length
    let ty : String :=
      if truncatedByBytes && truncatedByLines then "both"
      else if truncatedByBytes then "bytes"
      else if truncatedByLines then "lines"
      else ""
    (tc, ⟨truncatedByBytes || truncatedByLines, totalLines, totalBytes, shownLines, tc.length, ty⟩)

/-- A UTF-8 continuation byte: 0x80 to 0xBF. -/
def isContByte (b : Nat) : Bool := 128 ≤ b && b ≤ 191

/-- UTF-8 validity of a byte sequence (RFC 3629 table: excludes
overlong encodings, surrogates, and code points above U+10FFFF). -/
def utf8Valid : GoStr → Bool
  | [] => true
  | b :: rest =>
    if b ≤ 127 then utf8Valid rest
    else if 194 ≤ b && b ≤ 223 then
      match rest with
      | c1 :: r => isContByte c1 && utf8Valid r
      | [] => false
    else if b == 224 then
      match rest with
      | c1 :: c2 :: r => (160 ≤ c1 && c1 ≤ 191) && isContByte c2 && utf8Valid r
      | _ => false
    else if (225 ≤ b && b ≤ 236) || b == 238 || b == 239 then
      match rest with
      | c1 :: c2 :: r => isContByte c1 && isContByte c2 && utf8Valid r
      | _ => false
    else if b == 237 then
      match rest with
      | c1 :: c2 :: r => (128 ≤ c1 && c1 ≤ 159) && isContByte c2 && utf8Valid r
      | _ => false
    else if b == 240 then
      match rest with
      | c1 :: c2 :: c3 :: r => (144 ≤ c1 && c1 ≤ 191) && isContByte c2 && isContByte c3 && utf8Valid r
      | _ => false
    else if 241 ≤ b && b ≤ 243 then
      match rest with
      | c1 :: c2 :: c3 :: r => isContByte c1 && isContByte c2 && isContByte c3 && utf8Valid r
      | _ => false
    else if b == 244 then
      match rest with
      | c1 :: c2 :: c3 :: r => (128 ≤ c1 && c1 ≤ 143) && isContByte c2 && isContByte c3 && utf8Valid r
      | _ => false
    else false

/-- Go byte-wise string comparison s < t (the order in which os.ReadDir
sorts directory entries by name). -/
def lexLtB : GoStr → GoStr → Bool
  | [], [] => false
  | [], _ :: _ => true
  | _ :: _, [] => false
  | a :: as, b :: bs => if a < b then true else if b < a then false else lexLtB as bs

/-- Boolean form of: every element of the list is lexicographically
smaller than every later element. -/
def pairwiseLexB : List GoStr → Bool
  | [] => true
  | a :: t => (t.all (fun b => lexLtB a b)) && pairwiseLexB t

/-- parseExtList from src/main.go: split the option value on commas,
lower-case and trim each item, drop blank items, and prepend a dot to
items that lack one. -/
def parseExtList (extString : GoStr) : List GoStr :=
  if extString == [] then []
  else (extString.splitOn 44).filterMap (fun p =>
    let e := trimSpaceB (toLowerB p)
    if e == [] then none
    else if (str ".").isPrefixOf e then some e else some (46 :: e))

/-! Concrete fixtures used by the counterexamples and witnesses. -/

/-- Directory listing b.txt, a, c.txt, z in the sorted order that
os.ReadDir returns it: a, b.txt, c.txt, z. -/
def entriesSortEx : FSList :=
  .cons (.dir (str "a") true .nil)
    (.cons (.file (str "b.txt"))
      (.cons (.file (str "c.txt"))
        (.cons (.dir (str "z") true .nil) .nil)))

/-- A directory with children b.txt, a, c.txt, z. -/
def fsSortEx : FS := .dir (str "proj") true entriesSortEx

/-- The listing of proj containing a.py, .hidden and sub containing
b.go, in sorted os.ReadDir order. -/
def entriesProj : FSList :=
  .cons (.file (str ".hidden"))
    (.cons (.file (str "a.py"))
      (.cons (.dir (str "sub") true (.cons (.file (str "b.go")) .nil)) .nil))

/-- The directory proj with entries a.py, .hidden, sub containing b.go. -/
def fsProj : FS := .dir (str "proj") true entriesProj

/-- A project containing a .git directory (with a config file inside)
and a source file. -/
def entriesGit : FSList :=
  .cons (.dir (str ".git") true (.cons (.file (str "config")) .nil))
    (.cons (.file (str "a.py")) .nil)

/-- The directory proj with a .git directory inside. -/
def fsGit : FS := .dir (str "proj") true entriesGit

/-- A listing with a build directory containing output, containing
result.txt, plus a source file. -/
def entriesBuild : FSList :=
  .cons (.dir (str "build") true
          (.cons (.dir (str "output") true (.cons (.file (str "result.txt")) .nil)) .nil))
    (.cons (.file (str "main.go")) .nil)

/-- The directory proj with build containing output containing
result.txt. -/
def fsBuild : FS := .dir (str "proj") true entriesBuild

/-- The rule for the ignore-file line build followed by a slash: a
plain directory-only rule. -/
def buildDirRule : GitignorePattern := { pattern := str "build", isNegation := false, isDir := true }

/-- The compiled rule list of an ignore file whose lines are a star
followed by dot log, then a negated important.log. -/
def rulesLog : List GitignorePattern := loadGitignore (str "*.log\n!important.log")

/-- The compiled rule list of an ignore file declaring the directory
rule build followed by a negation for a path nested inside build. -/
def rulesBuild : List GitignorePattern := loadGitignore (str "build/\n!build/output/result.txt")

/-- A 100-line file: the line a repeated 100 times, newline-terminated. -/
def content100 : GoStr := (List.replicate 100 ([97, 10] : GoStr)).flatten

/-- The listing of a directory that cannot be read: it does contain a
file, but os.ReadDir fails before reporting it. -/
def desSecret : FSList := .cons (.file (str "secret.txt")) .nil

/-- A subdirectory whose os.ReadDir call fails (permission denied). -/
def subUnreadable : FS := .dir (str "sub") false desSecret

/-- A root listing with a readable file followed by an unreadable
subdirectory. -/
def entriesRun : FSList := .cons (.file (str "a.txt")) (.cons subUnreadable .nil)

/-! Helper lemmas about the walker. -/

theorem buildTree_Name (cfg : Config) (pats : List GitignorePattern) (segs : List GoStr) (t : FS) :
    (buildTreeWithGitignore cfg pats segs t).Name = fsName t := by
  cases t <;> rfl

theorem buildTree_IsDir (cfg : Config) (pats : List GitignorePattern) (segs : List GoStr) (t : FS) :
    (buildTreeWithGitignore cfg pats segs t).IsDir = fsIsDir t := by
  cases t <;> rfl

theorem buildChildren_eq (cfg : Config) (pats : List GitignorePattern) (segs : List GoStr) :
    ∀ l : FSList,
      buildChildren cfg pats segs l =
        ((FSList.toList l).filter (keepEntry cfg pats segs)).map
          (fun e => buildTreeWithGitignore cfg pats (segs ++ [fsName e]) e)
  | .nil => rfl
  | .cons e es => by
    by_cases h : keepEntry cfg pats segs e = true <;>
      simp [buildChildren, FSList.toList, List.filter_cons, h, buildChildren_eq cfg pats segs es]

mutual
theorem visitedDirs_extends (cfg : Config) (pats : List GitignorePattern) :
    ∀ (t : FS) (segs p : List GoStr), p ∈ visitedDirs cfg pats segs t → segs <+: p
  | .file _, segs, p, hp => by simp [visitedDirs] at hp
  | .dir n rb entries, segs, p, hp => by
    rw [visitedDirs] at hp
    rcases List.mem_cons.mp hp with h | h
    · exact h ▸ List.prefix_refl _
    · rcases rb with _ | _
      · simp at h
      · exact visitedChildren_extends cfg pats entries segs p h
theorem visitedChildren_extends (cfg : Config) (pats : List GitignorePattern) :
    ∀ (l : FSList) (segs p : List GoStr), p ∈ visitedChildren cfg pats segs l → segs <+: p
  | .nil, segs, p, hp => by simp [visitedChildren] at hp
  | .cons e es, segs, p, hp => by
    rw [visitedChildren] at hp
    rcases List.mem_append.mp hp with h | h
    · by_cases hk : keepEntry cfg pats segs e = true
      · rw [if_pos hk] at h
        exact ((segs.prefix_append [fsName e]).trans
          (visitedDirs_extends cfg pats e (segs ++ [fsName e]) p h))
      · rw [if_neg hk] at h; simp at h
    · exact visitedChildren_extends cfg pats es segs p h
end

theorem keepEntry_no_dot (cfg : Config) (pats : List GitignorePattern) (segs : List GoStr)
    (e : FS) (hall : cfg.flagAll = false) (hk : keepEntry cfg pats segs e = true) :
    (str ".").isPrefixOf (fsName e) = false := by
  unfold keepEntry at hk
  rw [hall] at hk
  simp only [Bool.not_false, Bool.true_and, Bool.and_eq_true, Bool.not_eq_true'] at hk
  exact hk.1

mutual
theorem visitedDirs_no_dot (cfg : Config) (pats : List GitignorePattern) (hall : cfg.flagAll = false) :
    ∀ (t : FS) (segs p : List GoStr), p ∈ visitedDirs cfg pats segs t →
      ∀ s ∈ p.drop segs.length, (str ".").isPrefixOf s = false
  | .file _, segs, p, hp => by simp [visitedDirs] at hp
  | .dir n rb entries, segs, p, hp => by
    rw [visitedDirs] at hp
    rcases List.mem_cons.mp hp with h | h
    · subst h; simp
    · rcases rb with _ | _
      · simp at h
      · exact visitedChildren_no_dot cfg pats hall entries segs p h
theorem visitedChildren_no_dot (cfg : Config) (pats : List GitignorePattern) (hall : cfg.flagAll = false) :
    ∀ (l : FSList) (segs p : List GoStr), p ∈ visitedChildren cfg pats segs l →
      ∀ s ∈ p.drop segs.length, (str ".").isPrefixOf s = false
  | .nil, segs, p, hp => by simp [visitedChildren] at hp
  | .cons e es, segs, p, hp => by
    rw [visitedChildren] at hp
    rcases List.mem_append.mp hp with h | h
    · by_cases hk : keepEntry cfg pats segs e = true
      · rw [if_pos hk] at h
        obtain ⟨rest, hrest⟩ := visitedDirs_extends cfg pats e (segs ++ [fsName e]) p h
        have hdropsucc := visitedDirs_no_dot cfg pats hall e (segs ++ [fsName e]) p h
        intro s hs
        rw [← hrest, List.append_assoc, List.drop_left] at hs
        rcases List.mem_cons.mp hs with hs1 | hs1
        · subst hs1; exact keepEntry_no_dot cfg pats segs e hall hk
        · refine hdropsucc s ?_
          rw [← hrest, List.drop_left]
          exact hs1
      · rw [if_neg hk] at h; simp at h
    · exact visitedChildren_no_dot cfg pats hall es segs p h
end

theorem beq_false_of_length_ne (l1 l2 : GoStr) (h : l1.length ≠ l2.length) : (l1 == l2) = false := by
  rw [beq_eq_false_iff_ne]
  intro he
  exact h (by rw [he])

theorem isPrefixOf_false_of_longer (l1 l2 : GoStr) (h : l2.length < l1.length) :
    l1.isPrefixOf l2 = false := by
  cases hb : l1.isPrefixOf l2
  · rfl
  · have := (List.isPrefixOf_iff_prefix.mp hb).length_le
    omega

/-- A pattern for a path nested inside build (one whose text starts
with build followed by a slash) never matches the path build itself:
not by exact or base-name match, not through the simple wildcard forms,
and not as a path component. -/
theorem matchGitignorePattern_build (q : GoStr) (hpre : (str "build/").isPrefixOf q = true) :
    matchGitignorePattern (str "build") q = false := by
  obtain ⟨r, hr⟩ := List.isPrefixOf_iff_prefix.mp hpre
  subst hr
  have hlen : ((str "build/") ++ r).length = 6 + r.length := by
    rw [List.length_append]
    rfl
  have h1 : ((str "build") == (str "build/") ++ r) = false := by
    apply beq_false_of_length_ne
    rw [hlen]
    rw [show (str "build").length = 5 from rfl]
    omega
  have hbase : filepathBase (str "build") = str "build" := rfl
  have hA : (str "*").isPrefixOf ((str "build/") ++ r) = false := by
    show ([42] : GoStr).isPrefixOf (98 :: ([117, 105, 108, 100, 47] ++ r)) = false
    simp [List.isPrefixOf]
  have hsplit : ((str "build").splitOn 47).any (fun part => part == (str "build/") ++ r) = false := by
    rw [show (str "build").splitOn 47 = [str "build"] from rfl]
    simp [h1]
  by_cases hsuf : (str "*").isSuffixOf ((str "build/") ++ r) = true
  · have hrne : r ≠ [] := by
      intro h0
      subst h0
      rw [List.append_nil] at hsuf
      exact absurd hsuf (by decide)
    have hq : trimSuffixB ((str "build/") ++ r) (str "*") =
        ((str "build/") ++ r).take (((str "build/") ++ r).length - 1) := by
      unfold trimSuffixB
      rw [if_pos hsuf]
      rfl
    have hlq : (trimSuffixB ((str "build/") ++ r) (str "*")).length = 5 + r.length := by
      rw [hq, List.length_take, hlen]
      omega
    have hc1 : (trimSuffixB ((str "build/") ++ r) (str "*")).isPrefixOf (str "build") = false := by
      apply isPrefixOf_false_of_longer
      rw [hlq]
      have : 0 < r.length := List.length_pos.mpr hrne
      rw [show (str "build").length = 5 from rfl]
      omega
    unfold matchGitignorePattern
    rw [hbase]
    simp [h1, hA, hsuf, hc1, hsplit]
  · unfold matchGitignorePattern
    rw [hbase]
    simp [h1, hA, hsplit]
    intro _ hs
    exact fun _ => hsuf (List.isSuffixOf_iff_suffix.mpr hs)

theorem shouldIgnoreStep_build_true (q : GitignorePattern)
    (hq : q.isNegation = true → (str "build/").isPrefixOf q.pattern = true) :
    shouldIgnoreStep (str "build") true true q = true := by
  cases hn : q.isNegation
  · simp [shouldIgnoreStep, hn]
  · have hm := matchGitignorePattern_build q.pattern (hq hn)
    simp [shouldIgnoreStep, hn, hm]

theorem foldl_build_true :
    ∀ pats : List GitignorePattern,
      (∀ q ∈ pats, q.isNegation = true → (str "build/").isPrefixOf q.pattern = true) →
      pats.foldl (shouldIgnoreStep (str "build") true) true = true
  | [], _ => rfl
  | q :: t, hneg => by
    rw [List.foldl_cons, shouldIgnoreStep_build_true q (hneg q (List.mem_cons_self q t))]
    exact foldl_build_true t (fun q' hq' => hneg q' (List.mem_cons.mpr (Or.inr hq')))

theorem foldl_build_mem :
    ∀ (pats : List GitignorePattern) (acc : Bool), buildDirRule ∈ pats →
      (∀ q ∈ pats, q.isNegation = true → (str "build/").isPrefixOf q.pattern = true) →
      pats.foldl (shouldIgnoreStep (str "build") true) acc = true
  | [], _, hmem, _ => absurd hmem (List.not_mem_nil _)
  | q :: t, acc, hmem, hneg => by
    have htail : ∀ q' ∈ t, q'.isNegation = true → (str "build/").isPrefixOf q'.pattern = true :=
      fun q' hq' => hneg q' (List.mem_cons.mpr (Or.inr hq'))
    rcases List.mem_cons.mp hmem with he | ht
    · subst he
      rw [List.foldl_cons]
      have hstep : shouldIgnoreStep (str "build") true acc buildDirRule = true := by
        simp [shouldIgnoreStep, buildDirRule,
          show matchGitignorePattern (str "build") (str "build") = true from rfl]
      rw [hstep]
      exact foldl_build_true t htail
    · rw [List.foldl_cons]
      exact foldl_build_mem t _ ht htail

theorem shouldIgnore_build (pats : List GitignorePattern)
    (hmem : buildDirRule ∈ pats)
    (hneg : ∀ q ∈ pats, q.isNegation = true → (str "build/").isPrefixOf q.pattern = true) :
    shouldIgnore (str "build") true pats = true := by
  unfold shouldIgnore
  rw [show trimPrefixB (str "build") (str "./") = str "build" from rfl]
  exact foldl_build_mem pats false hmem hneg

theorem keepEntry_build_false (cfg : Config) (pats : List GitignorePattern)
    (hmem : buildDirRule ∈ pats)
    (hneg : ∀ q ∈ pats, q.isNegation = true → (str "build/").isPrefixOf q.pattern = true)
    (e : FS) (hn : fsName e = str "build") (hd : fsIsDir e = true) :
    keepEntry cfg pats [] e = false := by
  unfold keepEntry
  rw [hn, hd]
  rw [show pathOf (([] : List GoStr) ++ [str "build"]) = str "build" from rfl]
  rw [shouldIgnore_build pats hmem hneg]
  have hlen : 0 < pats.length := List.length_pos.mpr (List.ne_nil_of_mem hmem)
  simp [hlen]

mutual
theorem visitedDirs_no_build (cfg : Config) (pats : List GitignorePattern)
    (hmem : buildDirRule ∈ pats)
    (hneg : ∀ q ∈ pats, q.isNegation = true → (str "build/").isPrefixOf q.pattern = true) :
    ∀ (t : FS) (segs p : List GoStr), ¬ ([str "build"] <+: segs) →
      p ∈ visitedDirs cfg pats segs t → ¬ ([str "build"] <+: p)
  | .file _, segs, p, hseg, hp => by simp [visitedDirs] at hp
  | .dir n rb entries, segs, p, hseg, hp => by
    rw [visitedDirs] at hp
    rcases List.mem_cons.mp hp with h | h
    · subst h; exact hseg
    · rcases rb with _ | _
      · simp at h
      · exact visitedChildren_no_build cfg pats hmem hneg entries segs p hseg h
theorem visitedChildren_no_build (cfg : Config) (pats : List GitignorePattern)
    (hmem : buildDirRule ∈ pats)
    (hneg : ∀ q ∈ pats, q.isNegation = true → (str "build/").isPrefixOf q.pattern = true) :
    ∀ (l : FSList) (segs p : List GoStr), ¬ ([str "build"] <+: segs) →
      p ∈ visitedChildren cfg pats segs l → ¬ ([str "build"] <+: p)
  | .nil, segs, p, hseg, hp => by simp [visitedChildren] at hp
  | .cons e es, segs, p, hseg, hp => by
    rw [visitedChildren] at hp
    rcases List.mem_append.mp hp with h | h
    · by_cases hk : keepEntry cfg pats segs e = true
      · rw [if_pos hk] at h
        by_cases hb2 : [str "build"] <+: (segs ++ [fsName e])
        · cases segs with
          | nil =>
            simp only [List.nil_append] at hb2
            have hfe : fsName e = str "build" := by
              obtain ⟨t0, ht0⟩ := hb2
              rw [List.singleton_append] at ht0
              cases t0 with
              | nil => injection ht0 with h1 h2; exact h1.symm
              | cons x xs =>
                injection ht0 with h1 h2
                exact absurd h2 (by simp)
            cases e with
            | file nm => simp [visitedDirs] at h
            | dir nm rb2 ents2 =>
              have hkf := keepEntry_build_false cfg pats hmem hneg (.dir nm rb2 ents2) hfe rfl
              rw [hkf] at hk
              exact absurd hk (by simp)
          | cons s0 st =>
            have hs0 : str "build" = s0 := by
              obtain ⟨t0, ht0⟩ := hb2
              rw [List.singleton_append, List.cons_append] at ht0
              injection ht0 with h1 h2
            exact absurd ⟨st, by rw [← hs0]; rfl⟩ hseg
        · exact visitedDirs_no_build cfg pats hmem hneg e (segs ++ [fsName e]) p hb2 h
      · rw [if_neg hk] at h; simp at h
    · exact visitedChildren_no_build cfg pats hmem hneg es segs p hseg h
end

theorem pairwiseLexB_iff :
    ∀ l : List GoStr, pairwiseLexB l = true ↔ List.Pairwise (fun a b => lexLtB a b = true) l
  | [] => by simp [pairwiseLexB]
  | a :: t => by
    simp [pairwiseLexB, Bool.and_eq_true, List.all_eq_true, pairwiseLexB_iff t, List.pairwise_cons]

theorem mem_of_mem_trimSpaceB (b : Nat) (l : GoStr) (h : b ∈ trimSpaceB l) : b ∈ l := by
  unfold trimSpaceB at h
  rw [List.mem_reverse] at h
  have h2 := (List.dropWhile_sublist _).subset h
  rw [List.mem_reverse] at h2
  exact (List.dropWhile_sublist _).subset h2

theorem lowerByte_not_upper (x : Nat) : (65 ≤ lowerByte x && lowerByte x ≤ 90) = false := by
  unfold lowerByte
  by_cases h : (65 ≤ x && x ≤ 90) = true
  · rw [if_pos h]
    simp only [Bool.and_eq_true, decide_eq_true_eq] at h
    rw [Bool.eq_false_iff]
    intro hc
    simp only [Bool.and_eq_true, decide_eq_true_eq] at hc
    omega
  · rw [if_neg h]
    simp only [Bool.and_eq_true, decide_eq_true_eq, not_and, not_le] at h
    rw [Bool.eq_false_iff]
    intro hc
    simp only [Bool.and_eq_true, decide_eq_true_eq] at hc
    omega

theorem foldl_no_match (path : GoStr) (isDir : Bool) :
    ∀ (l : List GitignorePattern) (acc : Bool),
      (∀ q ∈ l, (q.isDir && !isDir) = false → matchGitignorePattern path q.pattern = false) →
      l.foldl (shouldIgnoreStep path isDir) acc = acc
  | [], acc, _ => rfl
  | q :: t, acc, hno => by
    rw [List.foldl_cons]
    have hstep : shouldIgnoreStep path isDir acc q = acc := by
      unfold shouldIgnoreStep
      by_cases hd : (q.isDir && !isDir) = true
      · rw [if_pos hd]
      · rw [if_neg hd]
        rw [hno q (List.mem_cons_self q t) (Bool.eq_false_iff.mpr hd)]
        simp
    rw [hstep]
    exact foldl_no_match path isDir t acc (fun q' h' hd' => hno q' (List.mem_cons.mpr (Or.inr h')) hd')

/-! The claims. -/

/-- C9 (confirmed): with maxBytes and maxLines both non-positive,
loadFileContentWithLimits is the identity on the content: it returns
the content unchanged with Truncated false, the shown counts equal to
the total counts, and no truncation kind. -/
theorem nonpositive_limits_identity (content : GoStr) (maxBytes maxLines : Int)
    (hb : maxBytes ≤ 0) (hl : maxLines ≤ 0) :
    loadFileContentWithLimits content maxBytes maxLines =
      (content, ⟨false, lineCount content, content.length, lineCount content, content.length, ""⟩) := by
  unfold loadFileContentWithLimits
  rw [if_pos ⟨hb, hl⟩]
  rfl

/-- Witness for C9 at a one-byte file with both limits zero. -/
theorem nonpositive_limits_identity_witness :
    loadFileContentWithLimits [97] 0 0 = ([97], ⟨false, 1, 1, 1, 1, ""⟩) :=
  nonpositive_limits_identity [97] 0 0 (by decide) (by decide)

/-- C5 (corrected): counterexample — the byte cap does not back off to
a character boundary: cutting the two-byte UTF-8 character 0xC3 0xA9 at
one byte yields the lone byte 0xC3, which is not valid UTF-8, so the
truncated content of a valid UTF-8 file need not be valid UTF-8. -/
theorem byte_cap_splits_utf8 :
    (loadFileContentWithLimits [195, 169] 1 0).1 = [195] ∧
    utf8Valid [195, 169] = true ∧
    utf8Valid (loadFileContentWithLimits [195, 169] 1 0).1 = false :=
  ⟨by decide, by decide, by decide⟩

/-- C5 (corrected): the byte cap is a plain prefix cut of the rejoined
content at maxBytes bytes, with no adjustment to a character boundary. -/
theorem byte_cap_plain_cut (content : GoStr) (maxBytes : Int) (h : 0 < maxBytes) :
    (loadFileContentWithLimits content maxBytes 0).1 =
      (List.intercalate [10] (dropTrailEmpty (content.splitOn 10))).take maxBytes.toNat := by
  unfold loadFileContentWithLimits
  rw [if_neg (by omega : ¬(maxBytes ≤ 0 ∧ (0 : Int) ≤ 0))]
  simp only [show decide ((0 : Int) < 0) = false from rfl, Bool.false_and, Bool.false_eq_true,
    if_false]
  split
  · rfl
  · rename_i hbb
    rw [List.take_of_length_le]
    simp only [Bool.and_eq_true, decide_eq_true_eq, not_and, not_lt] at hbb
    by_cases h0 : 0 < maxBytes
    · have := hbb (by exact_mod_cast h0)
      omega
    · omega

/-- Witness for C5 at the two-byte character file with cap one. -/
theorem byte_cap_plain_cut_witness :
    (loadFileContentWithLimits [195, 169] 1 0).1 =
      (List.intercalate [10] (dropTrailEmpty (([195, 169] : GoStr).splitOn 10))).take (Int.toNat 1) :=
  byte_cap_plain_cut [195, 169] 1 (by decide)

set_option maxRecDepth 4000 in
/-- C6 (confirmed): for the 100-line file, maxLines 10 truncates to 10
of 100 lines with kind lines, maxLines 1000 does not truncate; and in
general the TruncationInfo always reports the exact shown line and byte
counts of the returned content and the exact total line and byte counts
of the original content, whichever limit triggered. -/
theorem truncation_info_exact_counts :
    ((loadFileContentWithLimits content100 0 10).2 = ⟨true, 100, 200, 10, 19, "lines"⟩) ∧
    ((loadFileContentWithLimits content100 0 1000).2.Truncated = false) ∧
    ∀ (content : GoStr) (maxBytes maxLines : Int),
      (loadFileContentWithLimits content maxBytes maxLines).2.ShownBytes =
        (loadFileContentWithLimits content maxBytes maxLines).1.length ∧
      (loadFileContentWithLimits content maxBytes maxLines).2.ShownLines =
        lineCount (loadFileContentWithLimits content maxBytes maxLines).1 ∧
      (loadFileContentWithLimits content maxBytes maxLines).2.TotalBytes = content.length ∧
      (loadFileContentWithLimits content maxBytes maxLines).2.TotalLines = lineCount content := by
  refine ⟨by decide, by decide, fun content maxBytes maxLines => ?_⟩
  unfold loadFileContentWithLimits lineCount
  split
  · exact ⟨rfl, rfl, rfl, rfl⟩
  · exact ⟨rfl, rfl, rfl, rfl⟩

/-- C10 (confirmed): every extension produced by parseExtList starts
with a dot and contains no upper-case ASCII letter, blank items are
dropped, and extension parsing is case-insensitive and dot-optional on
concrete inputs. -/
theorem parseExtList_normalized :
    (∀ (s e : GoStr), e ∈ parseExtList s →
      ((str ".").isPrefixOf e && e.all (fun b => !(65 ≤ b && b ≤ 90))) = true) ∧
    parseExtList (str "go,PY") = parseExtList (str ".GO,.py") ∧
    parseExtList (str "go,PY") = [str ".go", str ".py"] ∧
    parseExtList (str " , ,go,") = [str ".go"] := by
  refine ⟨?_, by decide, by decide, by decide⟩
  intro s e he
  unfold parseExtList at he
  by_cases hs : (s == ([] : GoStr)) = true
  · rw [if_pos hs] at he
    simp at he
  · rw [if_neg hs] at he
    obtain ⟨p, hp, hstep⟩ := List.mem_filterMap.mp he
    dsimp only at hstep
    have hmem : ∀ b ∈ trimSpaceB (toLowerB p), (65 ≤ b && b ≤ 90) = false := by
      intro b hb
      obtain ⟨x, hx, hxe⟩ := List.mem_map.mp (mem_of_mem_trimSpaceB b (toLowerB p) hb)
      rw [← hxe]
      exact lowerByte_not_upper x
    by_cases h0 : (trimSpaceB (toLowerB p) == ([] : GoStr)) = true
    · rw [if_pos h0] at hstep
      exact absurd hstep (by simp)
    · rw [if_neg h0] at hstep
      by_cases hdot : ((str ".").isPrefixOf (trimSpaceB (toLowerB p))) = true
      · rw [if_pos hdot] at hstep
        have he2 : trimSpaceB (toLowerB p) = e := Option.some.inj hstep
        rw [← he2, Bool.and_eq_true]
        refine ⟨hdot, ?_⟩
        rw [List.all_eq_true]
        intro b hb
        rw [Bool.not_eq_true']
        exact hmem b hb
      · rw [if_neg hdot] at hstep
        have he2 : e = 46 :: trimSpaceB (toLowerB p) := (Option.some.inj hstep).symm
        rw [he2, Bool.and_eq_true]
        constructor
        · show ([46] : GoStr).isPrefixOf (46 :: trimSpaceB (toLowerB p)) = true
          simp [List.isPrefixOf]
        · rw [List.all_eq_true]
          intro b hb
          rcases List.mem_cons.mp hb with hb1 | hb1
          · subst hb1
            decide
          · rw [Bool.not_eq_true']
            exact hmem b hb1

/-- Witness for C10: the extension parsed from the item go starts with
a dot and has no upper-case letter. -/
theorem parseExtList_normalized_witness :
    ((str ".").isPrefixOf (str ".go") && (str ".go").all (fun b => !(65 ≤ b && b ≤ 90))) = true :=
  parseExtList_normalized.1 (str "go") (str ".go") (by decide)

/-- C4 (confirmed): with the rules compiled from the ignore file whose
lines are a star-dot-log pattern and then a negated important.log,
shouldIgnore leaves important.log not ignored and debug.log ignored;
and in general rules are folded in declaration order and the last rule
that matches (and applies to the entry kind) decides the outcome as the
negation of its isNegation flag. -/
theorem gitignore_negation_last_match_wins :
    shouldIgnore (str "important.log") false rulesLog = false ∧
    shouldIgnore (str "debug.log") false rulesLog = true ∧
    ∀ (pats : List GitignorePattern) (path : GoStr) (isDir : Bool)
      (pre : List GitignorePattern) (r : GitignorePattern) (post : List GitignorePattern),
      pats = pre ++ r :: post →
      (r.isDir && !isDir) = false →
      matchGitignorePattern (trimPrefixB path (str "./")) r.pattern = true →
      (∀ q ∈ post, (q.isDir && !isDir) = false →
        matchGitignorePattern (trimPrefixB path (str "./")) q.pattern = false) →
      shouldIgnore path isDir pats = !r.isNegation := by
  refine ⟨by decide, by decide, ?_⟩
  intro pats path isDir pre r post hsplit hdir hmatch hno
  subst hsplit
  unfold shouldIgnore
  rw [List.foldl_append, List.foldl_cons]
  have hstep : ∀ acc, shouldIgnoreStep (trimPrefixB path (str "./")) isDir acc r = !r.isNegation := by
    intro acc
    unfold shouldIgnoreStep
    rw [hdir, hmatch]
    cases hn : r.isNegation <;> simp [hn]
  rw [hstep]
  exact foldl_no_match _ _ post _ hno

/-- Witness for C4: the general last-match rule applied to the compiled
log rules at important.log yields not ignored. -/
theorem gitignore_negation_last_match_wins_witness :
    shouldIgnore (str "important.log") false rulesLog = false :=
  gitignore_negation_last_match_wins.2.2 rulesLog (str "important.log") false
    [{ pattern := str "*.log", isNegation := false, isDir := false }]
    { pattern := str "important.log", isNegation := true, isDir := false }
    [] (by decide) (by decide) (by decide) (by intro q hq; simp at hq)

/-- C1 (corrected): counterexample — for the directory with children
b.txt, a, c.txt, z the built children order is a, b.txt, c.txt, z (the
plain os.ReadDir name order), and the claimed directories-before-files
grouping does not hold: the file b.txt precedes the directory z. -/
theorem buildTree_children_not_dirs_first :
    ((buildTreeWithGitignore {} [] [] fsSortEx).Children.map Node.Name =
      [str "a", str "b.txt", str "c.txt", str "z"]) ∧
    ¬ List.Pairwise (fun x y : Node => x.IsDir = false → y.IsDir = false)
        (buildTreeWithGitignore {} [] [] fsSortEx).Children :=
  ⟨by decide, by decide⟩

/-- C1 (corrected): the children of a directory node are listed in the
order os.ReadDir returns them, so when the entry listing is sorted
case-sensitively lexicographically by name, the children names are too,
with directories and files interleaved rather than grouped. -/
theorem buildTree_children_lexicographic
    (cfg : Config) (pats : List GitignorePattern) (segs : List GoStr)
    (n : GoStr) (rb : Bool) (entries : FSList)
    (hsorted : pairwiseLexB ((FSList.toList entries).map fsName) = true) :
    pairwiseLexB
      ((buildTreeWithGitignore cfg pats segs (.dir n rb entries)).Children.map Node.Name) = true := by
  rcases rb with _ | _
  · rfl
  · show pairwiseLexB ((buildChildren cfg pats segs entries).map Node.Name) = true
    rw [buildChildren_eq, List.map_map]
    have hmap : ((FSList.toList entries).filter (keepEntry cfg pats segs)).map
        (Node.Name ∘ fun e => buildTreeWithGitignore cfg pats (segs ++ [fsName e]) e) =
        ((FSList.toList entries).filter (keepEntry cfg pats segs)).map fsName := by
      apply List.map_congr_left
      intro e he
      exact buildTree_Name cfg pats _ e
    rw [hmap, pairwiseLexB_iff]
    rw [pairwiseLexB_iff] at hsorted
    exact hsorted.sublist ((List.filter_sublist _).map fsName)

/-- Witness for C1 at the sorted listing a, b.txt, c.txt, z. -/
theorem buildTree_children_lexicographic_witness :
    pairwiseLexB
      ((buildTreeWithGitignore {} [] [] fsSortEx).Children.map Node.Name) = true :=
  buildTree_children_lexicographic {} [] [] (str "proj") true entriesSortEx (by decide)

/-- C2 (corrected): counterexample — under the default configuration
(flagAll false) the dotfile .hidden is not in the built tree of proj,
contrary to the claim that hidden entries are shown by default. -/
theorem default_config_omits_dotfiles :
    (str ".hidden") ∉ ((buildTreeWithGitignore {} [] [] fsProj).Children.map Node.Name) := by
  decide

/-- C2 (corrected): under the default configuration the built tree of
proj contains exactly a.py and sub with sub containing b.go, omitting
.hidden; .hidden is included only when the all flag is set. -/
theorem default_config_proj_tree :
    ((buildTreeWithGitignore {} [] [] fsProj).Children.map
        (fun c => (c.Name, c.IsDir, c.Children.map Node.Name)) =
      [(str "a.py", false, []), (str "sub", true, [str "b.go"])]) ∧
    ((buildTreeWithGitignore ⟨true⟩ [] [] fsProj).Children.map Node.Name =
      [str ".hidden", str "a.py", str "sub"]) :=
  ⟨by decide, by decide⟩

/-- C7 (corrected): counterexample — with the all flag set, the .git
directory is included in the built tree and its contents are listed and
visited, so .git is not always excluded under every configuration. -/
theorem gitdir_included_with_all_flag :
    ((buildTreeWithGitignore ⟨true⟩ [] [] fsGit).Children.map
        (fun c => (c.Name, c.IsDir, c.Children.map Node.Name)) =
      [(str ".git", true, [str "config"]), (str "a.py", false, [])]) ∧
    [str ".git"] ∈ visitedDirs ⟨true⟩ [] [] fsGit :=
  ⟨by decide, by decide⟩

/-- C7 (corrected): when the all flag is unset (the default), every
dot-named entry — in particular a .git directory — is excluded from the
children of the built tree and the walk never descends through any
dot-named directory. -/
theorem dotfiles_excluded_without_all_flag
    (cfg : Config) (pats : List GitignorePattern) (n : GoStr) (rb : Bool) (entries : FSList)
    (hall : cfg.flagAll = false) :
    (((buildTreeWithGitignore cfg pats [] (.dir n rb entries)).Children.map Node.Name).all
        (fun nm => !((str ".").isPrefixOf nm)) = true) ∧
    ((visitedDirs cfg pats [] (.dir n rb entries)).all
        (fun p => p.all (fun s => !((str ".").isPrefixOf s))) = true) := by
  constructor
  · rw [List.all_eq_true]
    intro nm hnm
    rcases rb with _ | _
    · exact absurd hnm (by simp [buildTreeWithGitignore])
    · rw [show (buildTreeWithGitignore cfg pats [] (.dir n true entries)).Children =
          buildChildren cfg pats [] entries from rfl, buildChildren_eq, List.map_map] at hnm
      obtain ⟨e, he, hne⟩ := List.mem_map.mp hnm
      have hkeep := (List.mem_filter.mp he).2
      have hN : (Node.Name ∘ fun e => buildTreeWithGitignore cfg pats ([] ++ [fsName e]) e) e =
          fsName e := buildTree_Name cfg pats _ e
      rw [hN] at hne
      rw [Bool.not_eq_true', ← hne]
      exact keepEntry_no_dot cfg pats [] e hall hkeep
  · rw [List.all_eq_true]
    intro p hp
    rw [List.all_eq_true]
    intro s hs
    rw [Bool.not_eq_true']
    exact visitedDirs_no_dot cfg pats hall (.dir n rb entries) [] p hp s (by simpa using hs)

/-- Witness for C7 at the default configuration on the project with a
.git directory. -/
theorem dotfiles_excluded_without_all_flag_witness :
    (((buildTreeWithGitignore {} [] [] fsGit).Children.map Node.Name).all
        (fun nm => !((str ".").isPrefixOf nm)) = true) ∧
    ((visitedDirs {} [] [] fsGit).all
        (fun p => p.all (fun s => !((str ".").isPrefixOf s))) = true) :=
  dotfiles_excluded_without_all_flag {} [] (str "proj") true entriesGit rfl

/-- C8 (corrected): counterexample — the tree built for a directory
whose read fails (and which actually contains a file) is identical to
the tree built for an empty readable directory: the node is kept with
no children, but no per-entry error of any kind is recorded in the
result, so the claimed error marker does not exist. -/
theorem unreadable_dir_indistinguishable :
    buildTreeWithGitignore {} [] []
        (FS.dir (str "sub") false (.cons (.file (str "secret.txt")) .nil)) =
      buildTreeWithGitignore {} [] [] (FS.dir (str "sub") true .nil) ∧
    (buildTreeWithGitignore {} [] []
        (FS.dir (str "sub") false (.cons (.file (str "secret.txt")) .nil))).Children = [] :=
  ⟨rfl, rfl⟩

/-- C8 (corrected): when reading a subdirectory fails the run does not
abort: the directory is kept as a node with no children, and the
siblings before and after it are still processed; no error is attached
to the node. -/
theorem unreadable_dir_kept_run_continues
    (cfg : Config) (pats : List GitignorePattern) (n dn : GoStr) (des : FSList)
    (entries : FSList) (es1 es2 : List FS)
    (hsplit : FSList.toList entries = es1 ++ FS.dir dn false des :: es2)
    (hkeep : keepEntry cfg pats [] (FS.dir dn false des) = true) :
    (buildTreeWithGitignore cfg pats [dn] (FS.dir dn false des) =
      { Name := dn, Path := pathOf [dn], IsDir := true, Children := [], Content := [] }) ∧
    ((buildTreeWithGitignore cfg pats [] (.dir n true entries)).Children =
      (es1.filter (keepEntry cfg pats [])).map
          (fun e => buildTreeWithGitignore cfg pats [fsName e] e) ++
        { Name := dn, Path := pathOf [dn], IsDir := true, Children := [], Content := [] } ::
          (es2.filter (keepEntry cfg pats [])).map
            (fun e => buildTreeWithGitignore cfg pats [fsName e] e)) := by
  constructor
  · rfl
  · show buildChildren cfg pats [] entries = _
    rw [buildChildren_eq, hsplit, List.filter_append, List.filter_cons, if_pos hkeep,
      List.map_append, List.map_cons]
    rfl

/-- Witness for C8: a listing with a readable file followed by an
unreadable subdirectory. -/
theorem unreadable_dir_kept_run_continues_witness :
    (buildTreeWithGitignore {} [] [str "sub"] subUnreadable =
      { Name := str "sub", Path := pathOf [str "sub"], IsDir := true, Children := [],
        Content := [] }) ∧
    ((buildTreeWithGitignore {} [] [] (.dir (str "proj") true entriesRun)).Children =
      ([FS.file (str "a.txt")].filter (keepEntry {} [] [])).map
          (fun e => buildTreeWithGitignore {} [] [fsName e] e) ++
        { Name := str "sub", Path := pathOf [str "sub"], IsDir := true, Children := [],
          Content := [] } ::
          (([] : List FS).filter (keepEntry {} [] [])).map
            (fun e => buildTreeWithGitignore {} [] [fsName e] e)) :=
  unreadable_dir_kept_run_continues {} [] (str "proj") (str "sub") desSecret entriesRun
    [FS.file (str "a.txt")] [] (by decide) (by decide)

/-- C3 (confirmed): for every rule set containing the directory rule
for build in which every negation rule targets a path nested inside
build, and every tree whose root listing contains a build directory
(here one containing output containing result.txt), the built tree has
no build directory child and the walk never reads build or anything
below it: no visited path starts with the build segment, so no nested
negation can re-include any of its content. -/
theorem walker_prunes_ignored_build_dir
    (cfg : Config) (pats : List GitignorePattern)
    (hmem : buildDirRule ∈ pats)
    (hneg : ∀ q ∈ pats, q.isNegation = true → (str "build/").isPrefixOf q.pattern = true)
    (n : GoStr) (rb : Bool) (entries : FSList) (b : FS)
    (_hb : b ∈ FSList.toList entries) (_hbn : fsName b = str "build")
    (_hbd : fsIsDir b = true) :
    (((buildTreeWithGitignore cfg pats [] (.dir n rb entries)).Children).all
        (fun c => !(c.Name == str "build" && c.IsDir)) = true) ∧
    ((visitedDirs cfg pats [] (.dir n rb entries)).all
        (fun p => !([str "build"].isPrefixOf p)) = true) := by
  constructor
  · rw [List.all_eq_true]
    intro c hc
    rcases rb with _ | _
    · exact absurd hc (by simp [buildTreeWithGitignore])
    · rw [show (buildTreeWithGitignore cfg pats [] (.dir n true entries)).Children =
          buildChildren cfg pats [] entries from rfl, buildChildren_eq] at hc
      obtain ⟨e, he, hce⟩ := List.mem_map.mp hc
      have hkeep := (List.mem_filter.mp he).2
      rw [Bool.not_eq_true', ← hce, buildTree_Name, buildTree_IsDir]
      by_cases hfn : fsName e = str "build"
      · cases hfd : fsIsDir e
        · simp
        · exfalso
          rw [keepEntry_build_false cfg pats hmem hneg e hfn hfd] at hkeep
          exact absurd hkeep (by simp)
      · rw [beq_eq_false_iff_ne.mpr hfn]
        simp
  · rw [List.all_eq_true]
    intro p hp
    rw [Bool.not_eq_true']
    have hnb := visitedDirs_no_build cfg pats hmem hneg (.dir n rb entries) [] p
      (by rintro ⟨t0, ht0⟩; simp at ht0) hp
    cases hx : [str "build"].isPrefixOf p
    · rfl
    · exact absurd (List.isPrefixOf_iff_prefix.mp hx) hnb

/-- Witness for C3: the rules compiled from an ignore file declaring
the build directory rule and a negation nested inside build, on the
project containing build, output, result.txt. -/
theorem walker_prunes_ignored_build_dir_witness :
    (((buildTreeWithGitignore {} rulesBuild [] fsBuild).Children).all
        (fun c => !(c.Name == str "build" && c.IsDir)) = true) ∧
    ((visitedDirs {} rulesBuild [] fsBuild).all
        (fun p => !([str "build"].isPrefixOf p)) = true) :=
  walker_prunes_ignored_build_dir {} rulesBuild (by decide) (by decide)
    (str "proj") true entriesBuild
    (FS.dir (str "build") true
      (.cons (.dir (str "output") true (.cons (.file (str "result.txt")) .nil)) .nil))
    (by decide) (by decide) (by decide)
